import Mathlib

/-!
Verification of the ASK-Terminal-AI interactive suggestion engine.

This development shallowly embeds the Go sources of the repository:
  * `terminal/command_mode.go` — the bubbletea state machine
    (`VirtualTerminalModel.Update`), the suggestion fetch pipeline
    (`getCommandSuggestions`) and the fallback text parser
    (`extractCommandsFromText`);
  * `utils/prompt.go` — `BuildPrompt` / `buildSystemContext` (both variants
    present in the file), together with the `dto` request/message structs
    they fill (package dto, provided among the unnamed source files).

Go strings are byte arrays; where the code manipulates byte positions
(`len`, slicing in the command editor) strings are embedded as `List Nat`
(their UTF-8 bytes).  Where the code manipulates text (the parsers,
which range over runes) strings are embedded as `List Char`, with the
UTF-8 encoding `strBytes` bridging the two views.
-/

/-- UTF-8 encoding of a single rune, as Go's `string(rune)` produces it. -/
def charUtf8Bytes (c : Char) : List Nat :=
  let v := c.toNat
  if v < 0x80 then [v]
  else if v < 0x800 then
    [0xC0 ||| (v >>> 6), 0x80 ||| (v &&& 0x3F)]
  else if v < 0x10000 then
    [0xE0 ||| (v >>> 12), 0x80 ||| ((v >>> 6) &&& 0x3F), 0x80 ||| (v &&& 0x3F)]
  else
    [0xF0 ||| (v >>> 18), 0x80 ||| ((v >>> 12) &&& 0x3F),
     0x80 ||| ((v >>> 6) &&& 0x3F), 0x80 ||| (v &&& 0x3F)]

/-- UTF-8 bytes of a Go string given as its runes (Go `[]byte(s)`). -/
def strBytes (s : List Char) : List Nat :=
  s.flatMap charUtf8Bytes

/-- Go `unicode.IsSpace`: the white-space runes recognised by
`strings.TrimSpace`. -/
def goIsSpace (c : Char) : Bool :=
  c = ' ' ∨ c = '\t' ∨ c = '\n' ∨ c.toNat = 11 ∨ c.toNat = 12 ∨ c = '\r' ∨
  c.toNat = 0x85 ∨ c.toNat = 0xA0 ∨ c.toNat = 0x1680 ∨
  (0x2000 ≤ c.toNat ∧ c.toNat ≤ 0x200A) ∨ c.toNat = 0x2028 ∨
  c.toNat = 0x2029 ∨ c.toNat = 0x202F ∨ c.toNat = 0x205F ∨ c.toNat = 0x3000

/-- Go `strings.TrimSpace` on the rune view of a string. -/
def goTrimSpace (s : List Char) : List Char :=
  ((s.dropWhile goIsSpace).reverse.dropWhile goIsSpace).reverse

/-- Go `strings.Split(s, string(sep))` for a one-rune separator: splits at
every occurrence, keeping empty fields. -/
def splitChar (sep : Char) : List Char → List (List Char)
  | [] => [[]]
  | c :: rest =>
    if c = sep then [] :: splitChar sep rest
    else
      match splitChar sep rest with
      | [] => [[c]]
      | l :: ls => (c :: l) :: ls

/-- Go `strings.SplitN(s, sep, 2)` for a nonempty separator, reported as
`some (before, after)` at the first occurrence of `sep`, or `none` when
`sep` does not occur (in which case `SplitN` returns the single field
`[s]`). -/
def splitOnce (sep : List Char) : List Char → Option (List Char × List Char)
  | [] => none
  | c :: rest =>
    if sep.isPrefixOf (c :: rest) then some ([], (c :: rest).drop sep.length)
    else (splitOnce sep rest).map (fun p => (c :: p.1, p.2))

/-- Result element of the suggestion parsers: the `Command` and
`Description` fields of `CommandSuggestion` as produced by
`getCommandSuggestions` / `extractCommandsFromText` (the editor fields
are filled in later by the `suggestionsMsg` handler). -/
structure ParsedSuggestion where
  command : List Char
  description : List Char
  deriving Repr, DecidableEq

/-- Inner loop of `extractCommandsFromText` over the separator list
`[" - ", ": "]`: the first separator that occurs in the line and yields a
command that is nonempty and not comment-like produces a suggestion
(`break` in Go); otherwise the next separator is tried. -/
def trySeparators (l : List Char) : List (List Char) → Option ParsedSuggestion
  | [] => none
  | sep :: rest =>
    match splitOnce sep l with
    | some (a, b) =>
      let cmd := goTrimSpace a
      let desc := goTrimSpace b
      if cmd.length > 0 ∧ ¬ [Char.ofNat 35].isPrefixOf cmd ∧
          ¬ ['/', '/'].isPrefixOf cmd then
        some ⟨cmd, desc⟩
      else trySeparators l rest
    | none => trySeparators l rest

/-- Per-line body of `extractCommandsFromText`: trim the line, skip it when
empty, otherwise try the separators `" - "` then `": "`. -/
def processLine (line : List Char) : Option ParsedSuggestion :=
  let l := goTrimSpace line
  if l = [] then none
  else trySeparators l [[' ', '-', ' '], [':', ' ']]

/-- Embedding of `extractCommandsFromText` (command_mode.go): split the
content into lines and collect the suggestions the per-line heuristic
yields. -/
def extractCommandsFromText (content : List Char) : List ParsedSuggestion :=
  (splitChar '\n' content).filterMap processLine

example :
    extractCommandsFromText ("ls -la - list files".data) =
      [⟨"ls -la".data, "list files".data⟩] := by decide

/-- JSON values as `encoding/json` sees them.  Object members are kept in
textual order; numbers keep their raw lexeme (the decode below never
accepts a number, so only its presence matters). -/
inductive Json where
  | null
  | bool (b : Bool)
  | num (lexeme : List Char)
  | str (s : List Char)
  | arr (elems : List Json)
  | obj (members : List (List Char × Json))
  deriving Repr

/-- JSON inter-token whitespace (RFC 8259, as in `encoding/json`). -/
def jsonWsP (c : Char) : Bool :=
  c = ' ' ∨ c = '\t' ∨ c = '\n' ∨ c = '\r'

/-- Dropping of inter-token whitespace. -/
def jskipWs (cs : List Char) : List Char :=
  cs.dropWhile jsonWsP

/-- Value of a hexadecimal digit. -/
def hexVal (c : Char) : Option Nat :=
  if '0' ≤ c ∧ c ≤ '9' then some (c.toNat - 48)
  else if 'a' ≤ c ∧ c ≤ 'f' then some (c.toNat - 87)
  else if 'A' ≤ c ∧ c ≤ 'F' then some (c.toNat - 55)
  else none

/-- Body of a JSON string literal after the opening quote: returns the
decoded runes and the input following the closing quote.  Escapes are
decoded as `encoding/json` does (`\uXXXX` taken as the code point it
names). -/
def parseStringBody : Nat → List Char → Option (List Char × List Char)
  | 0, _ => none
  | _ + 1, [] => none
  | fuel + 1, c :: rest =>
    if c = '"' then some ([], rest)
    else if c = '\\' then
      match rest with
      | [] => none
      | e :: rest2 =>
        if e = '"' ∨ e = '\\' ∨ e = '/' then
          (parseStringBody fuel rest2).map (fun p => (e :: p.1, p.2))
        else if e = 'b' then
          (parseStringBody fuel rest2).map (fun p => (Char.ofNat 8 :: p.1, p.2))
        else if e = 'f' then
          (parseStringBody fuel rest2).map (fun p => (Char.ofNat 12 :: p.1, p.2))
        else if e = 'n' then
          (parseStringBody fuel rest2).map (fun p => ('\n' :: p.1, p.2))
        else if e = 'r' then
          (parseStringBody fuel rest2).map (fun p => ('\r' :: p.1, p.2))
        else if e = 't' then
          (parseStringBody fuel rest2).map (fun p => ('\t' :: p.1, p.2))
        else if e = 'u' then
          match rest2 with
          | h1 :: h2 :: h3 :: h4 :: rest3 =>
            match hexVal h1, hexVal h2, hexVal h3, hexVal h4 with
            | some v1, some v2, some v3, some v4 =>
              let v := ((v1 * 16 + v2) * 16 + v3) * 16 + v4
              (parseStringBody fuel rest3).map
                (fun p => (Char.ofNat v :: p.1, p.2))
            | _, _, _, _ => none
          | _ => none
        else none
    else if c.toNat < 0x20 then none
    else (parseStringBody fuel rest).map (fun p => (c :: p.1, p.2))

/-- Decimal digit test. -/
def isDigitC (c : Char) : Bool := '0' ≤ c ∧ c ≤ '9'

/-- Integer part of a JSON number after an optional minus sign: `0`, or a
nonzero digit followed by digits (leading zeros are a syntax error). -/
def parseIntPart (cs : List Char) : Option (List Char × List Char) :=
  match cs with
  | [] => none
  | c :: rest =>
    if c = '0' then some ([c], rest)
    else if isDigitC c then
      some (c :: rest.takeWhile isDigitC, rest.dropWhile isDigitC)
    else none

/-- Fractional part: either absent or a dot followed by one or more
digits. -/
def parseFracPart (cs : List Char) : Option (List Char × List Char) :=
  match cs with
  | '.' :: rest =>
    match rest.takeWhile isDigitC with
    | [] => none
    | ds => some ('.' :: ds, rest.dropWhile isDigitC)
  | _ => some ([], cs)

/-- Exponent part: either absent or `e`/`E`, an optional sign and one or
more digits. -/
def parseExpPart (cs : List Char) : Option (List Char × List Char) :=
  match cs with
  | c :: rest =>
    if c = 'e' ∨ c = 'E' then
      match rest with
      | s :: rest2 =>
        if s = '+' ∨ s = '-' then
          match rest2.takeWhile isDigitC with
          | [] => none
          | ds => some (c :: s :: ds, rest2.dropWhile isDigitC)
        else
          match rest.takeWhile isDigitC with
          | [] => none
          | ds => some (c :: ds, rest.dropWhile isDigitC)
      | [] => none
    else some ([], cs)
  | [] => some ([], cs)

/-- JSON number starting at the current position (first char is `-` or a
digit): returns the lexeme and the remaining input. -/
def parseNumber (cs : List Char) : Option (List Char × List Char) := do
  let (sign, cs1) :=
    match cs with
    | '-' :: rest => (['-'], rest)
    | _ => (([] : List Char), cs)
  let (ip, cs2) ← parseIntPart cs1
  let (fp, cs3) ← parseFracPart cs2
  let (ep, cs4) ← parseExpPart cs3
  return (sign ++ ip ++ fp ++ ep, cs4)

/-- Mode of the recursive-descent JSON parser: one value, a nonempty
comma-separated element list closed by `]`, or a nonempty member list
closed by the closing brace. -/
inductive PMode where
  | val
  | elems
  | mems
  deriving Repr, DecidableEq

/-- Result of one parser run, tagged by the mode that produced it. -/
inductive PRes where
  | v (j : Json)
  | es (l : List Json)
  | ms (l : List (List Char × Json))

/-- Recursive-descent parser for JSON; `fuel` bounds the recursion depth
and every recursive call decreases it, so the definition is structural
and evaluates inside the kernel. -/
def parseRun : Nat → PMode → List Char → Option (PRes × List Char)
  | 0, _, _ => none
  | fuel + 1, PMode.val, cs =>
    match cs with
    | [] => none
    | c :: rest =>
      if c = 'n' then
        if ['u', 'l', 'l'].isPrefixOf rest then some (PRes.v Json.null, rest.drop 3)
        else none
      else if c = 't' then
        if ['r', 'u', 'e'].isPrefixOf rest then
          some (PRes.v (Json.bool true), rest.drop 3)
        else none
      else if c = 'f' then
        if ['a', 'l', 's', 'e'].isPrefixOf rest then
          some (PRes.v (Json.bool false), rest.drop 4)
        else none
      else if c = '"' then
        (parseStringBody (rest.length + 1) rest).map
          (fun p => (PRes.v (Json.str p.1), p.2))
      else if c = '[' then
        match jskipWs rest with
        | ']' :: rest2 => some (PRes.v (Json.arr []), rest2)
        | cs2 =>
          match parseRun fuel PMode.elems cs2 with
          | some (PRes.es vs, r) => some (PRes.v (Json.arr vs), r)
          | _ => none
      else if c = Char.ofNat 123 then
        let cs2 := jskipWs rest
        if cs2.headD ' ' = Char.ofNat 125 then
          some (PRes.v (Json.obj []), cs2.drop 1)
        else
          match parseRun fuel PMode.mems cs2 with
          | some (PRes.ms ms, r) => some (PRes.v (Json.obj ms), r)
          | _ => none
      else if c = '-' ∨ isDigitC c then
        (parseNumber (c :: rest)).map (fun p => (PRes.v (Json.num p.1), p.2))
      else none
  | fuel + 1, PMode.elems, cs =>
    match parseRun fuel PMode.val cs with
    | some (PRes.v v, cs1) =>
      (match jskipWs cs1 with
       | ',' :: cs2 =>
         match parseRun fuel PMode.elems (jskipWs cs2) with
         | some (PRes.es vs, cs3) => some (PRes.es (v :: vs), cs3)
         | _ => none
       | ']' :: cs2 => some (PRes.es [v], cs2)
       | _ => none)
    | _ => none
  | fuel + 1, PMode.mems, cs =>
    match cs with
    | '"' :: cs1 =>
      match parseStringBody (cs1.length + 1) cs1 with
      | some (k, cs2) =>
        (match jskipWs cs2 with
         | ':' :: cs3 =>
           match parseRun fuel PMode.val (jskipWs cs3) with
           | some (PRes.v v, cs4) =>
             (match jskipWs cs4 with
              | ',' :: cs5 =>
                match parseRun fuel PMode.mems (jskipWs cs5) with
                | some (PRes.ms ms, cs6) => some (PRes.ms ((k, v) :: ms), cs6)
                | _ => none
              | c :: cs5 =>
                if c = Char.ofNat 125 then some (PRes.ms [(k, v)], cs5)
                else none
              | _ => none)
           | _ => none
         | _ => none)
      | none => none
    | _ => none

/-- Parsing of one JSON value at the head of the input. -/
def parseValue (fuel : Nat) (cs : List Char) : Option (Json × List Char) :=
  match parseRun fuel PMode.val cs with
  | some (PRes.v j, r) => some (j, r)
  | _ => none

/-- Whole-input JSON parse as `json.Unmarshal` requires: one value with
only whitespace around it. -/
def parseJsonFull (content : List Char) : Option Json :=
  match parseValue (2 * content.length + 2) (jskipWs content) with
  | some (v, rest) => if jskipWs rest = [] then some v else none
  | none => none

/-- Option-valued traversal used for decoding lists (structural, so it
reduces definitionally). -/
def optMapM (f : α → Option β) : List α → Option (List β)
  | [] => some []
  | a :: rest => do
    let b ← f a
    let bs ← optMapM f rest
    return (b :: bs)

/-- Assignment `m[k] = v` on a Go map modelled as an association list:
replaces the value at an existing key, otherwise appends.  Go map
iteration order is unspecified; this model iterates in insertion order,
which coincides with Go for the single-key objects the suggestion
contract uses. -/
def goMapSet (k : List Char) (v : α) : List (List Char × α) → List (List Char × α)
  | [] => [(k, v)]
  | (k', v') :: rest =>
    if k' = k then (k, v) :: rest else (k', v') :: goMapSet k v rest

/-- Unmarshalling of a JSON value into Go `map[string]string`: `null`
leaves the map `nil`, an object stores each member whose value is a
string (`null` members store the zero value `""`), anything else is a
type error. -/
def decodeStrMap : Json → Option (List (List Char × List Char))
  | Json.null => some []
  | Json.obj members =>
    members.foldlM
      (fun m kv =>
        match kv.2 with
        | Json.str s => some (goMapSet kv.1 s m)
        | Json.null => some (goMapSet kv.1 [] m)
        | _ => none)
      []
  | _ => none

/-- Unmarshalling into Go `map[string]map[string]string`. -/
def decodeStrMapMap : Json → Option (List (List Char × List (List Char × List Char)))
  | Json.null => some []
  | Json.obj members =>
    members.foldlM
      (fun m kv =>
        match decodeStrMap kv.2 with
        | some inner => some (goMapSet kv.1 inner m)
        | none => none)
      []
  | _ => none

/-- Unmarshalling into Go `[]map[string]map[string]string` (the
`rawSuggestions` target type in `getCommandSuggestions`): `null` leaves
the slice `nil`, an array decodes element-wise, anything else is a type
error. -/
def decodeRaw : Json → Option (List (List (List Char × List (List Char × List Char))))
  | Json.null => some []
  | Json.arr elems => optMapM decodeStrMapMap elems
  | _ => none

/-- Full model of `json.Unmarshal([]byte(content), &rawSuggestions)`:
syntactic parse of the whole input, then typed decode; `none` is the
error case. -/
def unmarshalSuggestions (content : List Char) :
    Option (List (List (List Char × List (List Char × List Char)))) :=
  (parseJsonFull content).bind decodeRaw

/-- Flattening loop of `getCommandSuggestions` over the decoded value:
for each array element, for each ordinal key, for each command/description
pair, emit a suggestion. -/
def flattenRaw (raw : List (List (List Char × List (List Char × List Char)))) :
    List ParsedSuggestion :=
  raw.flatMap (fun item =>
    item.flatMap (fun kv =>
      kv.2.map (fun cd => ⟨cd.1, cd.2⟩)))

/-- Outcome of `getCommandSuggestions` as seen by the `Update` loop. -/
structure SuggestionsMsg where
  suggestions : List ParsedSuggestion
  err : Option String
  deriving Repr, DecidableEq

/-- Content-processing tail of `getCommandSuggestions` (command_mode.go,
response branch): strict JSON decode, with `extractCommandsFromText` as
fallback when the decode errors; an error message is reported only when
both strategies produce nothing. -/
def suggestionsOfContent (content : List Char) : SuggestionsMsg :=
  match unmarshalSuggestions content with
  | none =>
    let fallback := extractCommandsFromText content
    if fallback.length > 0 then ⟨fallback, none⟩
    else ⟨[], some "failed to parse suggestions"⟩
  | some raw => ⟨flattenRaw raw, none⟩

example :
    parseJsonFull "[]".data = some (Json.arr []) := by rfl

example :
    suggestionsOfContent "[]".data = ⟨[], none⟩ := by rfl

example :
    suggestionsOfContent "null".data = ⟨[], none⟩ := by rfl

/-- Embedding of the `CommandSuggestion` struct of command_mode.go.  The
string fields hold the UTF-8 bytes of the Go strings, so `length` is
Go's `len` and `take`/`drop` are Go's byte slicing. -/
structure Suggestion where
  command : List Nat
  editedCommand : List Nat
  description : List Nat
  cursorPosition : Nat
  deriving Repr, DecidableEq

/-- Embedding of the fields of `VirtualTerminalModel` that the key and
suggestion messages below read or write.  The `textinput` widget, the
`query` echo string and the `commandResult` text are owned by components
outside this development and are omitted: none of the modelled branches
reads them. -/
structure Model where
  suggestions : List Suggestion
  selected : Nat
  loading : Bool
  queryMode : Bool
  directCommandMode : Bool
  showResult : Bool
  err : Option String
  deriving Repr, DecidableEq

/-- Messages handled by the modelled part of `Update`: the edit and
navigation keys, `esc`, and the `suggestionsMsg` completion of a fetch. -/
inductive Msg where
  | up
  | down
  | backspace
  | delete
  | left
  | right
  | esc
  | runes (rs : List Char)
  | gotSuggestions (msg : SuggestionsMsg)

/-- Backspace branch body: delete the byte before the cursor when the
cursor is not at position 0. -/
def editBackspace (s : Suggestion) : Suggestion :=
  if s.cursorPosition > 0 then
    { s with
        editedCommand :=
          s.editedCommand.take (s.cursorPosition - 1) ++
            s.editedCommand.drop s.cursorPosition,
        cursorPosition := s.cursorPosition - 1 }
  else s

/-- Delete-key branch body: delete the byte at the cursor when the cursor
is not at the end. -/
def editDelete (s : Suggestion) : Suggestion :=
  if s.cursorPosition < s.editedCommand.length then
    { s with
        editedCommand :=
          s.editedCommand.take s.cursorPosition ++
            s.editedCommand.drop (s.cursorPosition + 1) }
  else s

/-- Left-arrow branch body. -/
def editLeft (s : Suggestion) : Suggestion :=
  if s.cursorPosition > 0 then { s with cursorPosition := s.cursorPosition - 1 }
  else s

/-- Right-arrow branch body. -/
def editRight (s : Suggestion) : Suggestion :=
  if s.cursorPosition < s.editedCommand.length then
    { s with cursorPosition := s.cursorPosition + 1 }
  else s

/-- Default branch body for a `tea.KeyRunes` message: splice the UTF-8
encoding of the typed runes in at the cursor and advance the cursor by
the number of runes (`len(msg.Runes)`), which for multi-byte runes is
fewer than the number of inserted bytes. -/
def editInsert (rs : List Char) (s : Suggestion) : Suggestion :=
  { s with
      editedCommand :=
        s.editedCommand.take s.cursorPosition ++ strBytes rs ++
          s.editedCommand.drop s.cursorPosition,
      cursorPosition := s.cursorPosition + rs.length }

/-- In-place update of `m.suggestions[i]`, as Go's
`cmd := &m.suggestions[m.selected]` mutation does (the Go code never
reaches the out-of-range case, where it would panic). -/
def modifyIdx (f : Suggestion → Suggestion) : Nat → List Suggestion → List Suggestion
  | _, [] => []
  | 0, s :: rest => f s :: rest
  | i + 1, s :: rest => s :: modifyIdx f i rest

/-- Reset applied to every suggestion by the `esc` branch. -/
def resetSuggestion (s : Suggestion) : Suggestion :=
  { s with editedCommand := s.command, cursorPosition := s.command.length }

/-- Construction of a `CommandSuggestion` in the `suggestionsMsg` handler:
edited command starts as the command and the cursor starts at its byte
length. -/
def mkSuggestion (p : ParsedSuggestion) : Suggestion :=
  { command := strBytes p.command
    editedCommand := strBytes p.command
    description := strBytes p.description
    cursorPosition := (strBytes p.command).length }

/-- Guard shared by the edit branches of `Update`:
`!m.loading && len(m.suggestions) > 0 && !m.queryMode`. -/
def editGuard (m : Model) : Bool :=
  !m.loading && decide (m.suggestions.length > 0) && !m.queryMode

/-- Guard of the navigation branch of `Update`:
`!m.loading && len(m.suggestions) > 0 && !m.queryMode && !m.directCommandMode`. -/
def navGuard (m : Model) : Bool :=
  editGuard m && !m.directCommandMode

/-- Embedding of `VirtualTerminalModel.Update` (command_mode.go) on the
modelled messages.  Key messages that fail their guards fall through to
the `textinput` forwarding, which touches none of the modelled fields. -/
def update (m : Model) : Msg → Model
  | Msg.up =>
    if navGuard m then
      { m with
          selected :=
            (m.selected + m.suggestions.length - 1) % m.suggestions.length }
    else m
  | Msg.down =>
    if navGuard m then
      { m with selected := (m.selected + 1) % m.suggestions.length }
    else m
  | Msg.backspace =>
    if editGuard m then
      { m with suggestions := modifyIdx editBackspace m.selected m.suggestions }
    else m
  | Msg.delete =>
    if editGuard m then
      { m with suggestions := modifyIdx editDelete m.selected m.suggestions }
    else m
  | Msg.left =>
    if editGuard m then
      { m with suggestions := modifyIdx editLeft m.selected m.suggestions }
    else m
  | Msg.right =>
    if editGuard m then
      { m with suggestions := modifyIdx editRight m.selected m.suggestions }
    else m
  | Msg.esc =>
    if !m.loading && m.showResult then
      if m.suggestions.length > 0 then
        { m with showResult := false, queryMode := false,
                 directCommandMode := false }
      else
        { m with showResult := false, queryMode := true }
    else if editGuard m then
      { m with suggestions := m.suggestions.map resetSuggestion,
               queryMode := true }
    else m
  | Msg.runes rs =>
    if editGuard m then
      { m with suggestions := modifyIdx (editInsert rs) m.selected m.suggestions }
    else m
  | Msg.gotSuggestions msg =>
    let m1 := { m with loading := false }
    match msg.err with
    | some e => { m1 with err := some e, queryMode := true }
    | none =>
      { m1 with
          suggestions := msg.suggestions.map mkSuggestion,
          selected := 0,
          queryMode := false }

/-- Embedding of the `config.Config` fields that `BuildPrompt` and
`buildSystemContext` read (config/config.go).  The float64 `Temperature`
is embedded as a rational: the code only stores literal values, never
computes with them. -/
structure Config where
  modelName : String
  privateMode : Bool
  sysPrompt : String
  temperature : ℚ
  maxTokens : Nat
  deriving Repr, DecidableEq

/-- Ambient process state read by `buildSystemContext`: the value of
`utils.GetSystemInfo()`, the result of `os.Getwd()` (`none` models an
error) and the value of `utils.GetDirectoryStructure(1)`. -/
structure Env where
  sysInfo : String
  cwd : Option String
  dirStructure : String

/-- Embedding of `dto.Message` (src/unnamed/part_000, package dto)
restricted to the fields the prompt builder writes: `Role`, and the
string content stored by `SetStringContent`, which sets `Content` to the
JSON marshalling of the string and `parsedStringContent` to the string
itself — both determined by the one string kept here.  The optional
`Name`/`Prefix`/reasoning/tool-call fields are never written on this
path and stay at their Go zero values, so they are omitted. -/
structure Message where
  role : String
  content : String
  deriving Repr, DecidableEq

/-- Embedding of `dto.ResponseFormat` (src/unnamed/part_000, package
dto): a struct holding the single field `Type`. -/
structure ResponseFormat where
  type : String
  deriving Repr, DecidableEq

/-- Embedding of `dto.GeneralOpenAIRequest` (src/unnamed/part_000,
package dto) restricted to the fields `BuildPrompt` fills: `Model`,
`Messages`, `Temperature` (a `*float64` pointer, here an `Option`),
`MaxTokens` and `ResponseFormat` (a nil-able pointer, here an `Option`).
The remaining fields (`Stream`, `TopP`, `FrequencyPenalty`,
`PresencePenalty`, `Stop`, `Input`) are never written by the prompt
builder and stay at their Go zero values, so they are omitted. -/
structure GeneralOpenAIRequest where
  model : String
  messages : List Message
  temperature : Option ℚ
  maxTokens : Nat
  responseFormat : Option ResponseFormat
  deriving Repr, DecidableEq

/-- Formatting instructions appended for terminal mode (raw string
literal in buildSystemContext). -/
def terminalFormatInstructions : String :=
  "\nStrictly respond with a JSON array of command suggestions formatted as follows:\n[\n  \x7b\"1\": \x7b\"ls -la\": \"ls is a command to view files or folders in the current directory. -l is a parameter to display more detailed information, and -a is to show hidden files.\"\x7d\x7d,\n  \x7b\"2\": \x7b\"command\": \"description\"\x7d\x7d,\n  ...\n]\n"

/-- Shared tail of both `buildSystemContext` variants: environment info,
optional working-directory context, the user system prompt and, in
terminal mode, the JSON formatting instructions. -/
def systemContextTail (base : String) (conf : Config) (mode : String)
    (env : Env) : String :=
  let p1 := base ++ "\nCurrent environment:\n- Operating system: " ++ env.sysInfo
  let p2 :=
    if !conf.privateMode then
      match env.cwd with
      | some cwd =>
        p1 ++ "\n- Working directory: " ++ cwd ++ "\nDirectory structure:\n" ++
          env.dirStructure
      | none => p1
    else p1
  let p3 :=
    if conf.sysPrompt ≠ "" then
      p2 ++ "\nUser's system prompt: " ++ conf.sysPrompt
    else p2
  if mode = "terminal" then p3 ++ terminalFormatInstructions else p3

/-- Embedding of `buildSystemContext` (utils/prompt.go, first variant). -/
def buildSystemContext (conf : Config) (mode : String) (env : Env) : String :=
  systemContextTail
    (if mode = "terminal" then
      "You are a command line expert. Help the user with their terminal commands."
    else "You are a helpful assist.")
    conf mode env

/-- Embedding of `buildSystemContext` (utils/prompt.go, second variant),
which differs only in the non-terminal base prompt. -/
def buildSystemContextAlt (conf : Config) (mode : String) (env : Env) : String :=
  systemContextTail
    (if mode = "terminal" then
      "You are a command line expert. Help the user with their terminal commands."
    else
      "You are a command line assistant helping with terminal tasks and questions.")
    conf mode env

/-- Embedding of `BuildPrompt` (utils/prompt.go, first variant): terminal
mode pins temperature 0.0, 500 max tokens and a JSON response format;
conversation mode uses the configured sampling values. -/
def BuildPrompt (userQuery : String) (conf : Config) (mode : String)
    (env : Env) : GeneralOpenAIRequest :=
  let systemMessage : Message := ⟨"system", buildSystemContext conf mode env⟩
  let userMessage : Message :=
    ⟨"user",
      if mode = "terminal" then "User request: " ++ userQuery else userQuery⟩
  let temperature : ℚ := if mode = "terminal" then 0 else conf.temperature
  let maxTokens : Nat := if mode = "terminal" then 500 else conf.maxTokens
  let responseFormat : Option ResponseFormat :=
    if mode = "terminal" then some ⟨"json_object"⟩ else none
  { model := conf.modelName
    messages := [systemMessage, userMessage]
    temperature := some temperature
    maxTokens := maxTokens
    responseFormat := responseFormat }

/-- Embedding of `BuildPrompt` (utils/prompt.go, second variant): the
defaults are 0.7 temperature and unlimited (0) max tokens, overridden in
terminal mode by 0.1 and 500; the configured sampling values are never
read. -/
def BuildPromptAlt (userQuery : String) (conf : Config) (mode : String)
    (env : Env) : GeneralOpenAIRequest :=
  let systemMessage : Message := ⟨"system", buildSystemContextAlt conf mode env⟩
  let userMessage : Message :=
    ⟨"user",
      if mode = "terminal" then "User request: " ++ userQuery else userQuery⟩
  let temperature : ℚ := if mode = "terminal" then 1 / 10 else 7 / 10
  let maxTokens : Nat := if mode = "terminal" then 500 else 0
  let responseFormat : Option ResponseFormat :=
    if mode = "terminal" then some ⟨"json_object"⟩ else none
  { model := conf.modelName
    messages := [systemMessage, userMessage]
    temperature := some temperature
    maxTokens := maxTokens
    responseFormat := responseFormat }

/-- Edit operations of the command-editing context, as key messages. -/
inductive EditOp where
  | insertRunes (rs : List Char)
  | backspace
  | delete
  | left
  | right

/-- Key message carrying an edit operation. -/
def EditOp.toMsg : EditOp → Msg
  | EditOp.insertRunes rs => Msg.runes rs
  | EditOp.backspace => Msg.backspace
  | EditOp.delete => Msg.delete
  | EditOp.left => Msg.left
  | EditOp.right => Msg.right

/-- Effect of an edit operation on one suggestion. -/
def editStep : EditOp → Suggestion → Suggestion
  | EditOp.insertRunes rs => editInsert rs
  | EditOp.backspace => editBackspace
  | EditOp.delete => editDelete
  | EditOp.left => editLeft
  | EditOp.right => editRight

/-- Go string slicing `s[:k]`, which panics (here: `none`) when `k` is out
of range. -/
def sliceTo (l : List Nat) (k : Nat) : Option (List Nat) :=
  if k ≤ l.length then some (l.take k) else none

/-- Go string slicing `s[k:]`, which panics (here: `none`) when `k` is out
of range. -/
def sliceFrom (l : List Nat) (k : Nat) : Option (List Nat) :=
  if k ≤ l.length then some (l.drop k) else none

/-- Backspace with Go's slice bounds made explicit. -/
def editBackspaceChecked (s : Suggestion) : Option Suggestion :=
  if s.cursorPosition > 0 then do
    let b ← sliceTo s.editedCommand (s.cursorPosition - 1)
    let a ← sliceFrom s.editedCommand s.cursorPosition
    some { s with editedCommand := b ++ a, cursorPosition := s.cursorPosition - 1 }
  else some s

/-- Delete with Go's slice bounds made explicit. -/
def editDeleteChecked (s : Suggestion) : Option Suggestion :=
  if s.cursorPosition < s.editedCommand.length then do
    let b ← sliceTo s.editedCommand s.cursorPosition
    let a ← sliceFrom s.editedCommand (s.cursorPosition + 1)
    some { s with editedCommand := b ++ a }
  else some s

/-- Rune insertion with Go's slice bounds made explicit. -/
def editInsertChecked (rs : List Char) (s : Suggestion) : Option Suggestion :=
  do
    let b ← sliceTo s.editedCommand s.cursorPosition
    let a ← sliceFrom s.editedCommand s.cursorPosition
    some { s with editedCommand := b ++ strBytes rs ++ a,
                  cursorPosition := s.cursorPosition + rs.length }

/-- Edit operations with every Go string indexing bounds-checked; `none`
marks an out-of-range panic. -/
def editStepChecked : EditOp → Suggestion → Option Suggestion
  | EditOp.insertRunes rs => editInsertChecked rs
  | EditOp.backspace => editBackspaceChecked
  | EditOp.delete => editDeleteChecked
  | EditOp.left => fun s => some (editLeft s)
  | EditOp.right => fun s => some (editRight s)

/-- Replaying a sequence of edit keystrokes through `Update`. -/
def applyEdits (m : Model) (ops : List EditOp) : Model :=
  ops.foldl (fun acc op => update acc op.toMsg) m

/-- Data invariant of one suggestion: the cursor is inside
`[0, len(editedCommand)]`. -/
def SuggOk (s : Suggestion) : Prop :=
  s.cursorPosition ≤ s.editedCommand.length

instance (s : Suggestion) : Decidable (SuggOk s) := by
  unfold SuggOk; infer_instance

/-- Data invariant of the model: every suggestion in the list satisfies
`SuggOk`. -/
def InvModel (m : Model) : Prop :=
  ∀ s ∈ m.suggestions, SuggOk s

instance (m : Model) : Decidable (InvModel m) := by
  unfold InvModel; infer_instance

theorem charUtf8Bytes_ne_nil (c : Char) : charUtf8Bytes c ≠ [] := by
  unfold charUtf8Bytes
  simp only []
  split_ifs <;> simp

theorem length_le_strBytes_length (rs : List Char) :
    rs.length ≤ (strBytes rs).length := by
  induction rs with
  | nil => simp [strBytes]
  | cons c rest ih =>
    have hc : 1 ≤ (charUtf8Bytes c).length := by
      cases h : charUtf8Bytes c with
      | nil => exact absurd h (charUtf8Bytes_ne_nil c)
      | cons b bs => simp
    simp only [strBytes, List.flatMap_cons, List.length_append, List.length_cons]
    have : (rest.flatMap charUtf8Bytes).length = (strBytes rest).length := rfl
    omega

theorem modifyIdx_length (f : Suggestion → Suggestion) (i : Nat)
    (l : List Suggestion) : (modifyIdx f i l).length = l.length := by
  induction l generalizing i with
  | nil => cases i <;> rfl
  | cons s rest ih =>
    cases i with
    | zero => simp [modifyIdx]
    | succ j => simp [modifyIdx, ih]

theorem mem_modifyIdx (f : Suggestion → Suggestion) (i : Nat)
    (l : List Suggestion) (s : Suggestion) (h : s ∈ modifyIdx f i l) :
    s ∈ l ∨ ∃ t ∈ l, s = f t := by
  induction l generalizing i with
  | nil => simp [modifyIdx] at h
  | cons a rest ih =>
    cases i with
    | zero =>
      simp only [modifyIdx, List.mem_cons] at h
      rcases h with h | h
      · exact Or.inr ⟨a, List.mem_cons_self a rest, h⟩
      · exact Or.inl (List.mem_cons_of_mem a h)
    | succ j =>
      simp only [modifyIdx, List.mem_cons] at h
      rcases h with h | h
      · exact Or.inl (h ▸ List.mem_cons_self a rest)
      · rcases ih j h with h2 | ⟨t, ht, hs⟩
        · exact Or.inl (List.mem_cons_of_mem a h2)
        · exact Or.inr ⟨t, List.mem_cons_of_mem a ht, hs⟩

theorem modifyIdx_eq_self (f : Suggestion → Suggestion) (i : Nat)
    (l : List Suggestion) (s : Suggestion) (hget : l.get? i = some s)
    (hfix : f s = s) : modifyIdx f i l = l := by
  induction l generalizing i with
  | nil => simp at hget
  | cons a rest ih =>
    cases i with
    | zero =>
      simp only [List.get?_cons_zero, Option.some_inj] at hget
      simp [modifyIdx, hget, hfix]
    | succ j =>
      simp only [List.get?_cons_succ] at hget
      simp [modifyIdx, ih j hget]

theorem dropWhile_decomp (p : Char → Bool) (l : List Char) :
    ∃ pre, l = pre ++ l.dropWhile p ∧ ∀ c ∈ pre, p c = true := by
  induction l with
  | nil => exact ⟨[], rfl, by simp⟩
  | cons c rest ih =>
    by_cases hc : p c = true
    · rcases ih with ⟨pre, hpre, hall⟩
      refine ⟨c :: pre, ?_, ?_⟩
      · simp only [List.dropWhile_cons, hc, if_true]
        simpa using hpre
      · intro x hx
        rcases List.mem_cons.mp hx with h | h
        · exact h ▸ hc
        · exact hall x h
    · refine ⟨[], ?_, by simp⟩
      simp [List.dropWhile_cons, hc]

theorem dropWhile_nil_all (p : Char → Bool) (l : List Char)
    (h : l.dropWhile p = []) : ∀ c ∈ l, p c = true := by
  induction l with
  | nil => simp
  | cons c rest ih =>
    intro x hx
    by_cases hc : p c = true
    · simp only [List.dropWhile_cons, hc, if_true] at h
      rcases List.mem_cons.mp hx with h2 | h2
      · exact h2 ▸ hc
      · exact ih h x h2
    · simp [List.dropWhile_cons, hc] at h

theorem mem_dropWhile_mem (p : Char → Bool) (l : List Char) (c : Char)
    (h : c ∈ l.dropWhile p) : c ∈ l := by
  rcases dropWhile_decomp p l with ⟨pre, hpre, _⟩
  rw [hpre]
  exact List.mem_append_right pre h

theorem mem_goTrimSpace_mem (s : List Char) (c : Char)
    (h : c ∈ goTrimSpace s) : c ∈ s := by
  unfold goTrimSpace at h
  rw [List.mem_reverse] at h
  have h2 := mem_dropWhile_mem _ _ _ h
  rw [List.mem_reverse] at h2
  exact mem_dropWhile_mem _ _ _ h2

theorem splitOnce_decomp (sep l a b : List Char)
    (h : splitOnce sep l = some (a, b)) : l = a ++ sep ++ b := by
  induction l generalizing a with
  | nil => simp [splitOnce] at h
  | cons c rest ih =>
    by_cases hp : sep.isPrefixOf (c :: rest) = true
    · simp only [splitOnce] at h
      rw [if_pos hp] at h
      simp only [Option.some_inj, Prod.mk.injEq] at h
      rcases h with ⟨ha, hb⟩
      subst ha
      subst hb
      rcases List.isPrefixOf_iff_prefix.mp hp with ⟨t, ht⟩
      rw [← ht, List.drop_left]
      simp
    · simp only [splitOnce] at h
      rw [if_neg hp] at h
      cases hrec : splitOnce sep rest with
      | none => rw [hrec] at h; simp at h
      | some p =>
        rw [hrec] at h
        cases p with
        | mk a' b' =>
          simp only [Option.map_some', Option.some_inj, Prod.mk.injEq] at h
          rcases h with ⟨ha, hb⟩
          subst ha
          subst hb
          simp [ih a' hrec]

theorem splitOnce_mem (sep l : List Char) (p : List Char × List Char)
    (h : splitOnce sep l = some p) : ∀ c ∈ sep, c ∈ l := by
  intro c hc
  have := splitOnce_decomp sep l p.1 p.2 (by rw [h])
  rw [this]
  exact List.mem_append_left _ (List.mem_append_right _ hc)

theorem mem_splitChar_mem (sep : Char) (l : List Char) (line : List Char)
    (hline : line ∈ splitChar sep l) : ∀ c ∈ line, c ∈ l := by
  induction l generalizing line with
  | nil =>
    simp only [splitChar, List.mem_singleton] at hline
    subst hline; simp
  | cons x rest ih =>
    intro c hc
    by_cases hx : x = sep
    · simp only [splitChar, hx, if_true, List.mem_cons] at hline
      rcases hline with h | h
      · subst h; simp at hc
      · exact List.mem_cons_of_mem x (ih line h c hc)
    · simp only [splitChar, hx, if_false] at hline
      cases hrec : splitChar sep rest with
      | nil =>
        rw [hrec] at hline
        simp only [List.mem_singleton] at hline
        subst hline
        rw [List.mem_singleton] at hc
        exact hc ▸ List.mem_cons_self x rest
      | cons l0 ls =>
        rw [hrec] at hline
        simp only [List.mem_cons] at hline
        rcases hline with h | h
        · subst h
          rcases List.mem_cons.mp hc with h2 | h2
          · exact h2 ▸ List.mem_cons_self x rest
          · exact List.mem_cons_of_mem x
              (ih l0 (hrec ▸ List.mem_cons_self l0 ls) c h2)
        · exact List.mem_cons_of_mem x (ih line (hrec ▸ List.mem_cons_of_mem l0 h) c hc)

theorem dropWhile_append_singleton (p : Char → Bool) (c : Char) (l : List Char)
    (hc : p c = false) :
    (l ++ [c]).dropWhile p = l.dropWhile p ++ [c] := by
  induction l with
  | nil => simp [List.dropWhile_cons, hc]
  | cons x rest ih =>
    by_cases hx : p x = true
    · simp [List.dropWhile_cons, hx, ih]
    · simp only [Bool.not_eq_true] at hx
      simp [List.dropWhile_cons, hx]

theorem trimRight_cons (c : Char) (xs : List Char) (hc : goIsSpace c = false) :
    ((c :: xs).reverse.dropWhile goIsSpace).reverse =
      c :: (xs.reverse.dropWhile goIsSpace).reverse := by
  rw [List.reverse_cons, dropWhile_append_singleton goIsSpace c xs.reverse hc]
  simp

theorem goTrimSpace_cons (c : Char) (xs : List Char) (hc : goIsSpace c = false) :
    goTrimSpace (c :: xs) = c :: (xs.reverse.dropWhile goIsSpace).reverse := by
  unfold goTrimSpace
  rw [List.dropWhile_cons, hc]
  simp only [Bool.false_eq_true, if_false]
  exact trimRight_cons c xs hc

theorem goTrimSpace_cons2 (c d : Char) (xs : List Char)
    (hc : goIsSpace c = false) (hd : goIsSpace d = false) :
    ∃ ys, goTrimSpace (c :: d :: xs) = c :: d :: ys := by
  rw [goTrimSpace_cons c _ hc, trimRight_cons d xs hd]
  exact ⟨_, rfl⟩

theorem goTrimSpace_infix_self (s : List Char) : goTrimSpace s <:+: s := by
  rcases dropWhile_decomp goIsSpace s with ⟨pre, hpre, _⟩
  rcases dropWhile_decomp goIsSpace (s.dropWhile goIsSpace).reverse with
    ⟨pre2, hpre2, _⟩
  refine ⟨pre, pre2.reverse, ?_⟩
  have hrev : s.dropWhile goIsSpace =
      goTrimSpace s ++ pre2.reverse := by
    have := congrArg List.reverse hpre2
    simpa [goTrimSpace] using this
  rw [List.append_assoc, ← hrev]
  exact hpre.symm

theorem trySeparators_none (l : List Char) (seps : List (List Char))
    (h : ∀ sep ∈ seps, ∀ a b, splitOnce sep l = some (a, b) →
      ¬ ((goTrimSpace a).length > 0 ∧
          ¬ [Char.ofNat 35].isPrefixOf (goTrimSpace a) ∧
          ¬ ['/', '/'].isPrefixOf (goTrimSpace a))) :
    trySeparators l seps = none := by
  induction seps with
  | nil => rfl
  | cons sep rest ih =>
    cases hsp : splitOnce sep l with
    | none =>
      simp only [trySeparators, hsp]
      exact ih (fun s hs => h s (List.mem_cons_of_mem sep hs))
    | some p =>
      cases p with
      | mk a b =>
        have hrej := h sep (List.mem_cons_self sep rest) a b hsp
        simp only [trySeparators, hsp]
        rw [if_neg hrej]
        exact ih (fun s hs => h s (List.mem_cons_of_mem sep hs))

theorem processLine_eq_none_of_no_sep (line : List Char)
    (h1 : ¬ [' ', '-', ' '] <:+: line) (h2 : ¬ [':', ' '] <:+: line) :
    processLine line = none := by
  unfold processLine
  by_cases hl : goTrimSpace line = []
  · simp [hl]
  · rw [if_neg hl]
    refine trySeparators_none _ _ ?_
    intro sep hsep a b hsp _
    have hdec := splitOnce_decomp sep (goTrimSpace line) a b hsp
    have hinf : sep <:+: line := by
      refine List.IsInfix.trans ?_ (goTrimSpace_infix_self line)
      exact ⟨a, b, by rw [hdec]⟩
    rcases List.mem_cons.mp hsep with h | h
    · exact h1 (h ▸ hinf)
    · rcases List.mem_cons.mp h with h' | h'
      · exact h2 (h' ▸ hinf)
      · simp at h'

theorem processLine_eq_none_of_comment (line : List Char)
    (h : [Char.ofNat 35].isPrefixOf (goTrimSpace line) = true ∨
      ['/', '/'].isPrefixOf (goTrimSpace line) = true) :
    processLine line = none := by
  unfold processLine
  have hne : goTrimSpace line ≠ [] := by
    intro habs
    rw [habs] at h
    rcases h with h | h <;> simp [List.isPrefixOf] at h
  rw [if_neg hne]
  refine trySeparators_none _ _ ?_
  intro sep hsep a b hsp
  have hdec := splitOnce_decomp sep (goTrimSpace line) a b hsp
  rcases h with h | h
  · rcases List.isPrefixOf_iff_prefix.mp h with ⟨t, ht⟩
    cases a with
    | nil => intro hcond; simp [goTrimSpace] at hcond
    | cons c a2 =>
      have hca : Char.ofNat 35 :: t = c :: (a2 ++ sep ++ b) := by
        have h1 := ht.trans hdec
        simpa using h1
      obtain ⟨hc, -⟩ := List.cons_eq_cons.mp hca
      intro hcond
      rcases hcond with ⟨-, hno35, -⟩
      apply hno35
      rw [← hc, goTrimSpace_cons _ _ (by decide)]
      simp [List.isPrefixOf]
  · rcases List.isPrefixOf_iff_prefix.mp h with ⟨t, ht⟩
    cases a with
    | nil => intro hcond; simp [goTrimSpace] at hcond
    | cons c a2 =>
      have hca : '/' :: '/' :: t = c :: (a2 ++ sep ++ b) := by
        have h1 := ht.trans hdec
        simpa using h1
      obtain ⟨hc, htail⟩ := List.cons_eq_cons.mp hca
      cases a2 with
      | nil =>
        exfalso
        simp only [List.nil_append] at htail
        rcases List.mem_cons.mp hsep with h' | h'
        · rw [h'] at htail
          simp only [List.cons_append, List.nil_append] at htail
          obtain ⟨hbad, -⟩ := List.cons_eq_cons.mp htail
          exact absurd hbad (by decide)
        · rcases List.mem_cons.mp h' with h'' | h''
          · rw [h''] at htail
            simp only [List.cons_append, List.nil_append] at htail
            obtain ⟨hbad, -⟩ := List.cons_eq_cons.mp htail
            exact absurd hbad (by decide)
          · simp at h''
      | cons c2 a3 =>
        simp only [List.cons_append] at htail
        obtain ⟨hc2, -⟩ := List.cons_eq_cons.mp htail
        intro hcond
        rcases hcond with ⟨-, -, hnosl⟩
        apply hnosl
        rcases goTrimSpace_cons2 c c2 a3
            (by rw [← hc]; decide) (by rw [← hc2]; decide) with ⟨ys, hys⟩
        rw [hys, ← hc, ← hc2]
        simp [List.isPrefixOf]

theorem update_editMsg_eq (m : Model) (op : EditOp) :
    update m op.toMsg =
      if editGuard m then
        { m with suggestions := modifyIdx (editStep op) m.selected m.suggestions }
      else m := by
  cases op <;> rfl

theorem editStep_command (op : EditOp) (s : Suggestion) :
    (editStep op s).command = s.command := by
  cases op <;>
    simp only [editStep, editInsert, editBackspace, editDelete, editLeft,
      editRight] <;>
    split_ifs <;> rfl

theorem editStep_description (op : EditOp) (s : Suggestion) :
    (editStep op s).description = s.description := by
  cases op <;>
    simp only [editStep, editInsert, editBackspace, editDelete, editLeft,
      editRight] <;>
    split_ifs <;> rfl

theorem editStep_SuggOk (op : EditOp) (s : Suggestion) (h : SuggOk s) :
    SuggOk (editStep op s) := by
  cases op with
  | insertRunes rs =>
    have hb := length_le_strBytes_length rs
    simp only [SuggOk, editStep, editInsert, List.length_append,
      List.length_take, List.length_drop] at *
    omega
  | backspace =>
    simp only [SuggOk, editStep, editBackspace] at *
    split_ifs with hpos
    · simp only [List.length_append, List.length_take, List.length_drop]
      omega
    · exact h
  | delete =>
    simp only [SuggOk, editStep, editDelete] at *
    split_ifs with hpos
    · simp only [List.length_append, List.length_take, List.length_drop]
      omega
    · exact h
  | left =>
    simp only [SuggOk, editStep, editLeft] at *
    split_ifs with hpos
    · simp only []
      omega
    · exact h
  | right =>
    simp only [SuggOk, editStep, editRight] at *
    split_ifs with hpos
    · simp only []
      omega
    · exact h

theorem modifyIdx_map_command (f : Suggestion → Suggestion) (i : Nat)
    (l : List Suggestion) (hf : ∀ s, (f s).command = s.command) :
    (modifyIdx f i l).map (fun s => s.command) =
      l.map (fun s => s.command) := by
  induction l generalizing i with
  | nil => cases i <;> rfl
  | cons a rest ih =>
    cases i with
    | zero => simp [modifyIdx, hf]
    | succ j => simp [modifyIdx, ih]

theorem update_editMsg_fields (m : Model) (op : EditOp) :
    (update m op.toMsg).loading = m.loading ∧
    (update m op.toMsg).queryMode = m.queryMode ∧
    (update m op.toMsg).directCommandMode = m.directCommandMode ∧
    (update m op.toMsg).showResult = m.showResult ∧
    (update m op.toMsg).suggestions.length = m.suggestions.length ∧
    (update m op.toMsg).suggestions.map (fun s => s.command) =
      m.suggestions.map (fun s => s.command) := by
  rw [update_editMsg_eq]
  split_ifs with h
  · refine ⟨rfl, rfl, rfl, rfl, ?_, ?_⟩
    · exact modifyIdx_length _ _ _
    · exact modifyIdx_map_command _ _ _ (editStep_command op)
  · exact ⟨rfl, rfl, rfl, rfl, rfl, rfl⟩

theorem applyEdits_fields (m : Model) (ops : List EditOp) :
    (applyEdits m ops).loading = m.loading ∧
    (applyEdits m ops).queryMode = m.queryMode ∧
    (applyEdits m ops).directCommandMode = m.directCommandMode ∧
    (applyEdits m ops).showResult = m.showResult ∧
    (applyEdits m ops).suggestions.length = m.suggestions.length := by
  induction ops generalizing m with
  | nil => exact ⟨rfl, rfl, rfl, rfl, rfl⟩
  | cons op rest ih =>
    have h1 := update_editMsg_fields m op
    have h2 := ih (update m op.toMsg)
    simp only [applyEdits, List.foldl_cons] at *
    exact ⟨h2.1.trans h1.1, h2.2.1.trans h1.2.1, h2.2.2.1.trans h1.2.2.1,
      h2.2.2.2.1.trans h1.2.2.2.1, h2.2.2.2.2.trans h1.2.2.2.2.1⟩

theorem update_up_eq (m : Model) (h : navGuard m = true) :
    update m Msg.up =
      { m with
          selected :=
            (m.selected + m.suggestions.length - 1) % m.suggestions.length } := by
  simp [update, h]

theorem update_down_eq (m : Model) (h : navGuard m = true) :
    update m Msg.down =
      { m with selected := (m.selected + 1) % m.suggestions.length } := by
  simp [update, h]

theorem update_up_selected (m : Model) (h : navGuard m = true) (x : Nat) :
    update { m with selected := x } Msg.up =
      { m with
          selected := (x + m.suggestions.length - 1) % m.suggestions.length } := by
  have h2 : navGuard { m with selected := x } = true := h
  simp [update, h2]

theorem update_down_selected (m : Model) (h : navGuard m = true) (x : Nat) :
    update { m with selected := x } Msg.down =
      { m with selected := (x + 1) % m.suggestions.length } := by
  have h2 : navGuard { m with selected := x } = true := h
  simp [update, h2]

theorem iterate_up_eq (m : Model) (h : navGuard m = true)
    (hsel : m.selected < m.suggestions.length) :
    ∀ k, (fun x => update x Msg.up)^[k] m =
      { m with
          selected :=
            (m.selected + k * (m.suggestions.length - 1)) %
              m.suggestions.length } := by
  intro k
  induction k with
  | zero =>
    have : (m.selected + 0 * (m.suggestions.length - 1)) %
        m.suggestions.length = m.selected := by
      simp [Nat.mod_eq_of_lt hsel]
    rw [Function.iterate_zero_apply, this]
  | succ k ih =>
    rw [Function.iterate_succ_apply', ih, update_up_selected m h _]
    have hn : 1 ≤ m.suggestions.length := Nat.lt_of_le_of_lt (Nat.zero_le _) hsel
    have harith :
        ((m.selected + k * (m.suggestions.length - 1)) % m.suggestions.length +
            m.suggestions.length - 1) % m.suggestions.length =
          (m.selected + (k + 1) * (m.suggestions.length - 1)) %
            m.suggestions.length := by
      have h1 : (m.selected + k * (m.suggestions.length - 1)) %
            m.suggestions.length + m.suggestions.length - 1 =
          (m.selected + k * (m.suggestions.length - 1)) %
            m.suggestions.length + (m.suggestions.length - 1) := by
        omega
      rw [h1, Nat.mod_add_mod, Nat.succ_mul, ← Nat.add_assoc]
    rw [harith]

theorem iterate_down_eq (m : Model) (h : navGuard m = true)
    (hsel : m.selected < m.suggestions.length) :
    ∀ k, (fun x => update x Msg.down)^[k] m =
      { m with selected := (m.selected + k) % m.suggestions.length } := by
  intro k
  induction k with
  | zero =>
    have : (m.selected + 0) % m.suggestions.length = m.selected := by
      simp [Nat.mod_eq_of_lt hsel]
    rw [Function.iterate_zero_apply, this]
  | succ k ih =>
    rw [Function.iterate_succ_apply', ih, update_down_selected m h _]
    have harith : ((m.selected + k) % m.suggestions.length + 1) %
          m.suggestions.length =
        (m.selected + (k + 1)) % m.suggestions.length := by
      rw [Nat.mod_add_mod, Nat.add_assoc]
    rw [harith]

/-- C4: with a nonempty suggestion list of size n and a valid selected
index, each up step computes `(selected + n - 1) % n` and each down step
`(selected + 1) % n` (the Nat form of Go's `(selected ± 1 + n) % n` for
`selected ≥ 0`); n steps in one direction return `selected` to its start,
and after every step `selected` remains a valid index. -/
theorem navigate_n_steps_returns (m : Model) (hg : navGuard m = true)
    (hsel : m.selected < m.suggestions.length) :
    ((fun x => update x Msg.up)^[m.suggestions.length] m).selected =
        m.selected ∧
    ((fun x => update x Msg.down)^[m.suggestions.length] m).selected =
        m.selected ∧
    (∀ k, ((fun x => update x Msg.up)^[k] m).selected <
        m.suggestions.length) ∧
    (∀ k, ((fun x => update x Msg.down)^[k] m).selected <
        m.suggestions.length) := by
  have hpos : 0 < m.suggestions.length := Nat.lt_of_le_of_lt (Nat.zero_le _) hsel
  refine ⟨?_, ?_, ?_, ?_⟩
  · rw [iterate_up_eq m hg hsel]
    simp only []
    rw [Nat.add_mul_mod_self_left, Nat.mod_eq_of_lt hsel]
  · rw [iterate_down_eq m hg hsel]
    simp only []
    rw [Nat.add_mod_right, Nat.mod_eq_of_lt hsel]
  · intro k
    rw [iterate_up_eq m hg hsel]
    exact Nat.mod_lt _ hpos
  · intro k
    rw [iterate_down_eq m hg hsel]
    exact Nat.mod_lt _ hpos

/-- Concrete model used to witness the navigation claim. -/
def mNav : Model :=
  { suggestions :=
      [⟨[108], [108], [], 1⟩, ⟨[109], [109], [], 1⟩, ⟨[110], [110], [], 1⟩]
    selected := 1
    loading := false
    queryMode := false
    directCommandMode := false
    showResult := false
    err := none }

theorem navigate_n_steps_returns_witness :
    navGuard mNav = true ∧ mNav.selected < mNav.suggestions.length ∧
    ((fun x => update x Msg.up)^[mNav.suggestions.length] mNav).selected =
      mNav.selected :=
  ⟨by decide, by decide,
    (navigate_n_steps_returns mNav (by decide) (by decide)).1⟩

/-- C9: the fallback parse of
`"ls -la - list files\n# comment\ngrep -r foo - search"` yields exactly
the two suggestions `("ls -la", "list files")` and
`("grep -r foo", "search")`; in general the fallback works line by line,
skips every line whose trimmed text (hence every command part extracted
from it) begins with `#` or `//`, and skips every line containing neither
the `" - "` nor the `": "` separator. -/
theorem extract_fallback_contract :
    extractCommandsFromText
        ("ls -la - list files\n# comment\ngrep -r foo - search".data) =
      [⟨"ls -la".data, "list files".data⟩,
       ⟨"grep -r foo".data, "search".data⟩] ∧
    (∀ content, extractCommandsFromText content =
      (splitChar '\n' content).filterMap processLine) ∧
    (∀ line, [Char.ofNat 35].isPrefixOf (goTrimSpace line) = true ∨
        ['/', '/'].isPrefixOf (goTrimSpace line) = true →
      processLine line = none) ∧
    (∀ line, ¬ [' ', '-', ' '] <:+: line → ¬ [':', ' '] <:+: line →
      processLine line = none) := by
  refine ⟨by decide, fun _ => rfl, processLine_eq_none_of_comment, ?_⟩
  exact fun line h1 h2 => processLine_eq_none_of_no_sep line h1 h2

theorem extract_fallback_contract_witness :
    processLine ("# comment".data) = none ∧
    processLine ("hello world".data) = none :=
  ⟨extract_fallback_contract.2.2.1 ("# comment".data) (by decide),
   extract_fallback_contract.2.2.2 ("hello world".data) (by decide) (by decide)⟩

/-- C10: in terminal mode both `BuildPrompt` variants produce exactly two
messages — a system message followed by a user message whose content is
the query prefixed with `"User request: "` — a fixed constant temperature
(0.0 in the first variant, 0.1 in the second), `MaxTokens` 500 and
response format `json_object`; the configured temperature and max-tokens
values are ignored. -/
theorem buildPrompt_terminal_contract :
    ∀ (q : String) (conf : Config) (env : Env) (t : ℚ) (mt : Nat),
      (BuildPrompt q conf "terminal" env).messages =
        [⟨"system", buildSystemContext conf "terminal" env⟩,
         ⟨"user", "User request: " ++ q⟩] ∧
      (BuildPrompt q conf "terminal" env).temperature = some 0 ∧
      (BuildPrompt q conf "terminal" env).maxTokens = 500 ∧
      (BuildPrompt q conf "terminal" env).responseFormat =
        some ⟨"json_object"⟩ ∧
      BuildPrompt q { conf with temperature := t, maxTokens := mt }
          "terminal" env = BuildPrompt q conf "terminal" env ∧
      (BuildPromptAlt q conf "terminal" env).messages =
        [⟨"system", buildSystemContextAlt conf "terminal" env⟩,
         ⟨"user", "User request: " ++ q⟩] ∧
      (BuildPromptAlt q conf "terminal" env).temperature = some (1 / 10) ∧
      (BuildPromptAlt q conf "terminal" env).maxTokens = 500 ∧
      (BuildPromptAlt q conf "terminal" env).responseFormat =
        some ⟨"json_object"⟩ ∧
      BuildPromptAlt q { conf with temperature := t, maxTokens := mt }
          "terminal" env = BuildPromptAlt q conf "terminal" env := by
  intro q conf env t mt
  refine ⟨rfl, rfl, rfl, rfl, rfl, rfl, rfl, rfl, rfl, rfl⟩

/-- C5: starting from any non-loading editing state, after any sequence of
insert, backspace, delete and cursor-move keys, pressing Esc restores
every suggestion's `editedCommand` to its `command` and its cursor to
`len(command)`. -/
theorem edit_then_cancel_roundtrip (m : Model) (ops : List EditOp)
    (hl : m.loading = false) (hq : m.queryMode = false)
    (hr : m.showResult = false) (hs : m.suggestions ≠ []) :
    ∀ s ∈ (update (applyEdits m ops) Msg.esc).suggestions,
      s.editedCommand = s.command ∧
      s.cursorPosition = s.command.length := by
  obtain ⟨f1, f2, f3, f4, f5⟩ := applyEdits_fields m ops
  have hlen : 0 < (applyEdits m ops).suggestions.length := by
    rw [f5]
    exact List.length_pos.mpr hs
  have hcond1 : (!(applyEdits m ops).loading &&
      (applyEdits m ops).showResult) = false := by
    rw [f4, hr, Bool.and_false]
  have hguard : editGuard (applyEdits m ops) = true := by
    simp [editGuard, f1, f2, hl, hq, hlen]
  intro s hsmem
  simp only [update, hcond1, Bool.false_eq_true, if_false, hguard,
    if_true] at hsmem
  rcases List.mem_map.mp hsmem with ⟨t, _, rfl⟩
  exact ⟨rfl, rfl⟩

/-- Concrete editing state used to witness the round-trip claim. -/
def mEdit : Model :=
  { suggestions := [⟨[108, 115], [108, 115], [], 2⟩]
    selected := 0
    loading := false
    queryMode := false
    directCommandMode := false
    showResult := false
    err := none }

theorem edit_then_cancel_roundtrip_witness :
    (⟨[108, 115], [108, 115], [], 2⟩ : Suggestion).editedCommand =
        (⟨[108, 115], [108, 115], [], 2⟩ : Suggestion).command ∧
    (⟨[108, 115], [108, 115], [], 2⟩ : Suggestion).cursorPosition =
        (⟨[108, 115], [108, 115], [], 2⟩ : Suggestion).command.length :=
  edit_then_cancel_roundtrip mEdit [EditOp.backspace] rfl rfl rfl
    (by decide) ⟨[108, 115], [108, 115], [], 2⟩ (by decide)

/-- C6: in the command-editing context a backspace or cursor-left at
cursor position 0 and a delete or cursor-right at the end of
`editedCommand` leave the model unchanged, and under the cursor invariant
every edit operation's string slicing stays in range (the bounds-checked
semantics never panics and agrees with the unchecked one). -/
theorem edit_boundary_noops (m : Model) (s : Suggestion)
    (hg : editGuard m = true)
    (hget : m.suggestions.get? m.selected = some s) :
    (s.cursorPosition = 0 →
      update m Msg.backspace = m ∧ update m Msg.left = m) ∧
    (s.cursorPosition = s.editedCommand.length →
      update m Msg.delete = m ∧ update m Msg.right = m) ∧
    (∀ (op : EditOp) (t : Suggestion), SuggOk t →
      editStepChecked op t = some (editStep op t)) := by
  refine ⟨?_, ?_, ?_⟩
  · intro hpos
    constructor
    · show (if editGuard m then
          { m with suggestions := modifyIdx editBackspace m.selected m.suggestions }
        else m) = m
      rw [if_pos hg,
        modifyIdx_eq_self editBackspace m.selected m.suggestions s hget
          (by simp [editBackspace, hpos])]
    · show (if editGuard m then
          { m with suggestions := modifyIdx editLeft m.selected m.suggestions }
        else m) = m
      rw [if_pos hg,
        modifyIdx_eq_self editLeft m.selected m.suggestions s hget
          (by simp [editLeft, hpos])]
  · intro hpos
    constructor
    · show (if editGuard m then
          { m with suggestions := modifyIdx editDelete m.selected m.suggestions }
        else m) = m
      rw [if_pos hg,
        modifyIdx_eq_self editDelete m.selected m.suggestions s hget
          (by simp [editDelete, hpos])]
    · show (if editGuard m then
          { m with suggestions := modifyIdx editRight m.selected m.suggestions }
        else m) = m
      rw [if_pos hg,
        modifyIdx_eq_self editRight m.selected m.suggestions s hget
          (by simp [editRight, hpos])]
  · intro op t ht
    cases op with
    | insertRunes rs =>
      have h1 : t.cursorPosition ≤ t.editedCommand.length := ht
      simp [editStepChecked, editInsertChecked, editStep, editInsert,
        sliceTo, sliceFrom, h1]
    | backspace =>
      have h1 : t.cursorPosition ≤ t.editedCommand.length := ht
      by_cases hpos : t.cursorPosition > 0
      · have h2 : t.cursorPosition - 1 ≤ t.editedCommand.length := by omega
        simp [editStepChecked, editBackspaceChecked, editStep, editBackspace,
          sliceTo, sliceFrom, hpos, h1, h2]
      · simp [editStepChecked, editBackspaceChecked, editStep, editBackspace,
          hpos]
    | delete =>
      by_cases hpos : t.cursorPosition < t.editedCommand.length
      · have h2 : t.cursorPosition ≤ t.editedCommand.length := by omega
        have h3 : t.cursorPosition + 1 ≤ t.editedCommand.length := by omega
        simp [editStepChecked, editDeleteChecked, editStep, editDelete,
          sliceTo, sliceFrom, hpos, h2, h3]
      · simp [editStepChecked, editDeleteChecked, editStep, editDelete, hpos]
    | left => rfl
    | right => rfl

theorem edit_boundary_noops_witness :
    (update mEdit Msg.delete = mEdit ∧ update mEdit Msg.right = mEdit) ∧
    editStepChecked EditOp.backspace ⟨[108], [108], [], 1⟩ =
      some (editStep EditOp.backspace ⟨[108], [108], [], 1⟩) :=
  ⟨(edit_boundary_noops mEdit ⟨[108, 115], [108, 115], [], 2⟩ (by decide)
      (by decide)).2.1 (by decide),
   (edit_boundary_noops mEdit ⟨[108, 115], [108, 115], [], 2⟩ (by decide)
      (by decide)).2.2 EditOp.backspace ⟨[108], [108], [], 1⟩ (by decide)⟩

theorem InvModel_modifyIdx (m : Model) (op : EditOp)
    (h : InvModel m) :
    ∀ s ∈ modifyIdx (editStep op) m.selected m.suggestions, SuggOk s := by
  intro s hs
  rcases mem_modifyIdx (editStep op) m.selected m.suggestions s hs with
    hin | ⟨t, htin, rfl⟩
  · exact h s hin
  · exact editStep_SuggOk op t (h t htin)

/-- C7: a freshly delivered batch initialises every suggestion with
`editedCommand = command` and the cursor at `len(command)`, and every
modelled message (edit keys, navigation, Esc, batch replacement or fetch
error) preserves `0 ≤ cursorPosition ≤ len(editedCommand)` for every
suggestion in the list. -/
theorem suggestion_cursor_invariant :
    (∀ (m : Model) (msg : SuggestionsMsg), msg.err = none →
      ∀ s ∈ (update m (Msg.gotSuggestions msg)).suggestions,
        s.editedCommand = s.command ∧
        s.cursorPosition = s.command.length) ∧
    (∀ (m : Model) (msg : Msg), InvModel m → InvModel (update m msg)) := by
  constructor
  · intro m msg herr s hsmem
    simp only [update, herr] at hsmem
    rcases List.mem_map.mp hsmem with ⟨p, _, rfl⟩
    exact ⟨rfl, rfl⟩
  · intro m msg h
    cases msg with
    | up =>
      intro s hs
      simp only [update] at hs
      split at hs
      · exact h s hs
      · exact h s hs
    | down =>
      intro s hs
      simp only [update] at hs
      split at hs
      · exact h s hs
      · exact h s hs
    | backspace =>
      intro s hs
      simp only [update] at hs
      split at hs
      · exact InvModel_modifyIdx m EditOp.backspace h s hs
      · exact h s hs
    | delete =>
      intro s hs
      simp only [update] at hs
      split at hs
      · exact InvModel_modifyIdx m EditOp.delete h s hs
      · exact h s hs
    | left =>
      intro s hs
      simp only [update] at hs
      split at hs
      · exact InvModel_modifyIdx m EditOp.left h s hs
      · exact h s hs
    | right =>
      intro s hs
      simp only [update] at hs
      split at hs
      · exact InvModel_modifyIdx m EditOp.right h s hs
      · exact h s hs
    | runes rs =>
      intro s hs
      simp only [update] at hs
      split at hs
      · exact InvModel_modifyIdx m (EditOp.insertRunes rs) h s hs
      · exact h s hs
    | esc =>
      intro s hs
      simp only [update] at hs
      split at hs
      · split at hs
        · exact h s hs
        · exact h s hs
      · split at hs
        · rcases List.mem_map.mp hs with ⟨t, htin, rfl⟩
          exact Nat.le_refl _
        · exact h s hs
    | gotSuggestions msg =>
      intro s hs
      simp only [update] at hs
      cases hmsg : msg.err with
      | some e =>
        rw [hmsg] at hs
        exact h s hs
      | none =>
        rw [hmsg] at hs
        simp only [] at hs
        rcases List.mem_map.mp hs with ⟨p, _, rfl⟩
        exact Nat.le_refl _

/-- Concrete loading state used to witness the invariant claim. -/
def mLoad : Model :=
  { suggestions := []
    selected := 0
    loading := true
    queryMode := false
    directCommandMode := false
    showResult := false
    err := none }

theorem suggestion_cursor_invariant_witness :
    ((mkSuggestion ⟨"ls -la".data, "list files".data⟩).editedCommand =
        (mkSuggestion ⟨"ls -la".data, "list files".data⟩).command ∧
      (mkSuggestion ⟨"ls -la".data, "list files".data⟩).cursorPosition =
        (mkSuggestion ⟨"ls -la".data, "list files".data⟩).command.length) ∧
    InvModel (update mEdit Msg.backspace) :=
  ⟨suggestion_cursor_invariant.1 mLoad
      ⟨[⟨"ls -la".data, "list files".data⟩], none⟩ rfl
      (mkSuggestion ⟨"ls -la".data, "list files".data⟩) (by decide),
   suggestion_cursor_invariant.2 mEdit Msg.backspace (by decide)⟩

/-- Literal reading of the `suggestions-ready` claim: the machine leaves
query mode exactly on a success carrying at least one suggestion, and on
any other outcome — an error, or a success carrying zero suggestions —
returns to query mode with the error field set. -/
def suggestionsReadyClaim : Prop :=
  ∀ (m : Model) (msg : SuggestionsMsg), m.loading = true →
    ((msg.err = none ∧ msg.suggestions ≠ []) →
      (update m (Msg.gotSuggestions msg)).queryMode = false ∧
      (update m (Msg.gotSuggestions msg)).suggestions =
        msg.suggestions.map mkSuggestion ∧
      (update m (Msg.gotSuggestions msg)).selected = 0) ∧
    (¬ (msg.err = none ∧ msg.suggestions ≠ []) →
      (update m (Msg.gotSuggestions msg)).queryMode = true ∧
      (update m (Msg.gotSuggestions msg)).err ≠ none)

theorem suggestions_ready_counterexample :
    suggestionsOfContent ("[]".data) = ⟨[], none⟩ ∧
    ¬ suggestionsReadyClaim := by
  refine ⟨rfl, ?_⟩
  intro hclaim
  have h := (hclaim mLoad (suggestionsOfContent ("[]".data)) rfl).2 (by decide)
  exact absurd h.1 (by decide)

/-- C1 (amended): when a fetch completes, `loading` is cleared; on
`err == nil` — even with zero suggestions — the machine enters suggestion
mode (`queryMode = false`), replaces the whole batch in this single
update and resets `selected` to 0 with the error field untouched; on an
error it returns to query mode with `lastError` set to that error and the
old batch kept. -/
theorem suggestions_ready_amended (m : Model) (msg : SuggestionsMsg)
    (_hl : m.loading = true) :
    (update m (Msg.gotSuggestions msg)).loading = false ∧
    (msg.err = none →
      (update m (Msg.gotSuggestions msg)).queryMode = false ∧
      (update m (Msg.gotSuggestions msg)).suggestions =
        msg.suggestions.map mkSuggestion ∧
      (update m (Msg.gotSuggestions msg)).selected = 0 ∧
      (update m (Msg.gotSuggestions msg)).err = m.err) ∧
    (∀ e, msg.err = some e →
      (update m (Msg.gotSuggestions msg)).queryMode = true ∧
      (update m (Msg.gotSuggestions msg)).err = some e ∧
      (update m (Msg.gotSuggestions msg)).suggestions = m.suggestions) := by
  cases hmsg : msg.err with
  | none =>
    refine ⟨by simp [update, hmsg], ?_, ?_⟩
    · intro _
      refine ⟨?_, ?_, ?_, ?_⟩ <;> simp [update, hmsg]
    · intro e he
      exact Option.noConfusion he
  | some e0 =>
    refine ⟨by simp [update, hmsg], ?_, ?_⟩
    · intro habs
      exact Option.noConfusion habs
    · intro e he
      injection he with he2
      subst he2
      refine ⟨?_, ?_, ?_⟩ <;> simp [update, hmsg]

theorem suggestions_ready_amended_witness :
    mLoad.loading = true ∧
    (update mLoad
        (Msg.gotSuggestions ⟨[⟨"ls".data, "d".data⟩], none⟩)).queryMode =
      false :=
  ⟨rfl,
    ((suggestions_ready_amended mLoad ⟨[⟨"ls".data, "d".data⟩], none⟩
        rfl).2.1 rfl).1⟩

/-- JSON encoding of one ordinal-keyed suggestion entry
`{ordinal: {command: description}}`. -/
def encodeItem (t : List Char × List Char × List Char) : Json :=
  Json.obj [(t.1, Json.obj [(t.2.1, Json.str t.2.2)])]

theorem decodeStrMapMap_encodeItem (t : List Char × List Char × List Char) :
    decodeStrMapMap (encodeItem t) = some [(t.1, [(t.2.1, t.2.2)])] := rfl

theorem decodeRaw_encodeItems (js : List (List Char × List Char × List Char)) :
    decodeRaw (Json.arr (js.map encodeItem)) =
      some (js.map (fun t => [(t.1, [(t.2.1, t.2.2)])])) := by
  induction js with
  | nil => rfl
  | cons t rest ih =>
    have ih2 : optMapM decodeStrMapMap (rest.map encodeItem) =
        some (rest.map (fun t => [(t.1, [(t.2.1, t.2.2)])])) := ih
    simp only [List.map_cons, decodeRaw, optMapM,
      decodeStrMapMap_encodeItem, ih2, Option.some_bind]
    rfl

theorem flattenRaw_pairs (js : List (List Char × List Char × List Char)) :
    flattenRaw (js.map (fun t => [(t.1, [(t.2.1, t.2.2)])])) =
      js.map (fun t => ⟨t.2.1, t.2.2⟩) := by
  induction js with
  | nil => rfl
  | cons t rest ih =>
    simp only [List.map_cons, flattenRaw, List.flatMap_cons] at *
    rw [ih]
    rfl

/-- C8: whenever the model text parses as a JSON array of single-key
ordinal-keyed objects each containing one command/description pair, the
strict decode succeeds and the pairs are flattened in array order; in
particular `[{"1":{"ls -la":"list files"}}]` yields exactly the one
suggestion `("ls -la", "list files")`. -/
theorem strict_parse_flattens_in_order (content : List Char)
    (js : List (List Char × List Char × List Char))
    (h : parseJsonFull content = some (Json.arr (js.map encodeItem))) :
    suggestionsOfContent content =
      ⟨js.map (fun t => ⟨t.2.1, t.2.2⟩), none⟩ ∧
    suggestionsOfContent
        ("[\x7b\"1\":\x7b\"ls -la\":\"list files\"\x7d\x7d]".data) =
      ⟨[⟨"ls -la".data, "list files".data⟩], none⟩ := by
  constructor
  · have hu : unmarshalSuggestions content =
        some (js.map (fun t => [(t.1, [(t.2.1, t.2.2)])])) := by
      unfold unmarshalSuggestions
      rw [h, Option.some_bind]
      exact decodeRaw_encodeItems js
    unfold suggestionsOfContent
    rw [hu]
    dsimp only
    rw [flattenRaw_pairs]
  · rfl

theorem strict_parse_flattens_in_order_witness :
    suggestionsOfContent
        ("[\x7b\"1\":\x7b\"ls -la\":\"list files\"\x7d\x7d]".data) =
      ⟨[⟨"ls -la".data, "list files".data⟩], none⟩ :=
  (strict_parse_flattens_in_order
      ("[\x7b\"1\":\x7b\"ls -la\":\"list files\"\x7d\x7d]".data)
      [("1".data, "ls -la".data, "list files".data)] (by rfl)).2

theorem optMapM_eq_nil (f : α → Option β) (l : List α)
    (h : optMapM f l = some []) : l = [] := by
  cases l with
  | nil => rfl
  | cons a rest =>
    exfalso
    simp only [optMapM] at h
    cases hf : f a with
    | none => rw [hf] at h; simp at h
    | some b =>
      rw [hf] at h
      cases hr : optMapM f rest with
      | none => rw [hr] at h; simp at h
      | some bs => rw [hr] at h; simp at h

theorem parseRun_elems_ne_nil (f : Nat) (cs r : List Char) (vs : List Json)
    (h : parseRun f PMode.elems cs = some (PRes.es vs, r)) : vs ≠ [] := by
  cases f with
  | zero => simp [parseRun] at h
  | succ f =>
    simp only [parseRun] at h
    split at h
    · split at h
      · split at h
        · simp only [Option.some_inj, Prod.mk.injEq, PRes.es.injEq] at h
          rw [← h.1]
          simp
        · exact Option.noConfusion h
      · simp only [Option.some_inj, Prod.mk.injEq, PRes.es.injEq] at h
        rw [← h.1]
        simp
      · exact Option.noConfusion h
    · exact Option.noConfusion h

theorem parseRun_val_shape (f : Nat) (cs rest : List Char) (v : Json)
    (h : parseRun f PMode.val cs = some (PRes.v v, rest))
    (hv : v = Json.null ∨ v = Json.arr []) :
    (v = Json.null ∧ cs = 'n' :: 'u' :: 'l' :: 'l' :: rest) ∨
    (v = Json.arr [] ∧ ∃ ws, cs = '[' :: (ws ++ ']' :: rest) ∧
      ∀ c ∈ ws, jsonWsP c = true) := by
  cases f with
  | zero => simp [parseRun] at h
  | succ f =>
    cases cs with
    | nil => simp [parseRun] at h
    | cons c r =>
      simp only [parseRun] at h
      by_cases h1 : c = 'n'
      · rw [if_pos h1] at h
        by_cases h2 : ['u', 'l', 'l'].isPrefixOf r = true
        · rw [if_pos h2] at h
          simp only [Option.some_inj, Prod.mk.injEq, PRes.v.injEq] at h
          rcases List.isPrefixOf_iff_prefix.mp h2 with ⟨t, ht⟩
          left
          refine ⟨h.1.symm, ?_⟩
          rw [h1, ← h.2, ← ht]
          rfl
        · rw [if_neg h2] at h
          exact Option.noConfusion h
      · rw [if_neg h1] at h
        by_cases h2 : c = 't'
        · rw [if_pos h2] at h
          by_cases h3 : ['r', 'u', 'e'].isPrefixOf r = true
          · rw [if_pos h3] at h
            simp only [Option.some_inj, Prod.mk.injEq, PRes.v.injEq] at h
            rcases hv with hv | hv <;> rw [hv] at h <;>
              exact Json.noConfusion h.1
          · rw [if_neg h3] at h
            exact Option.noConfusion h
        · rw [if_neg h2] at h
          by_cases h3 : c = 'f'
          · rw [if_pos h3] at h
            by_cases h4 : ['a', 'l', 's', 'e'].isPrefixOf r = true
            · rw [if_pos h4] at h
              simp only [Option.some_inj, Prod.mk.injEq, PRes.v.injEq] at h
              rcases hv with hv | hv <;> rw [hv] at h <;>
                exact Json.noConfusion h.1
            · rw [if_neg h4] at h
              exact Option.noConfusion h
          · rw [if_neg h3] at h
            by_cases h4 : c = '"'
            · rw [if_pos h4] at h
              rcases Option.map_eq_some'.mp h with ⟨p, _, hp2⟩
              simp only [Prod.mk.injEq, PRes.v.injEq] at hp2
              rcases hv with hv | hv <;> rw [hv] at hp2 <;>
                exact Json.noConfusion hp2.1
            · rw [if_neg h4] at h
              by_cases h5 : c = '['
              · rw [if_pos h5] at h
                split at h
                · next rest2 heq =>
                    simp only [Option.some_inj, Prod.mk.injEq,
                      PRes.v.injEq] at h
                    right
                    refine ⟨h.1.symm, ?_⟩
                    rcases dropWhile_decomp jsonWsP r with ⟨pre, hpre, hpreWs⟩
                    refine ⟨pre, ?_, hpreWs⟩
                    rw [h5, ← h.2]
                    conv_lhs => rw [hpre]
                    rw [show List.dropWhile jsonWsP r = ']' :: rest2 from heq]
                · split at h
                  · next vs r2 heq2 =>
                      simp only [Option.some_inj, Prod.mk.injEq,
                        PRes.v.injEq] at h
                      have hne := parseRun_elems_ne_nil f _ _ vs heq2
                      rcases hv with hv | hv <;> rw [hv] at h
                      · exact Json.noConfusion h.1
                      · refine absurd ?_ hne
                        have harr := h.1
                        injection harr
                  · exact Option.noConfusion h
              · rw [if_neg h5] at h
                by_cases h6 : c = Char.ofNat 123
                · rw [if_pos h6] at h
                  by_cases h7 : (jskipWs r).headD ' ' = Char.ofNat 125
                  · rw [if_pos h7] at h
                    simp only [Option.some_inj, Prod.mk.injEq,
                      PRes.v.injEq] at h
                    rcases hv with hv | hv <;> rw [hv] at h <;>
                      exact Json.noConfusion h.1
                  · rw [if_neg h7] at h
                    split at h
                    · next ms r2 heq2 =>
                        simp only [Option.some_inj, Prod.mk.injEq,
                          PRes.v.injEq] at h
                        rcases hv with hv | hv <;> rw [hv] at h <;>
                          exact Json.noConfusion h.1
                    · exact Option.noConfusion h
                · rw [if_neg h6] at h
                  by_cases h7 : c = '-' ∨ isDigitC c = true
                  · rw [if_pos h7] at h
                    rcases Option.map_eq_some'.mp h with ⟨p, _, hp2⟩
                    simp only [Prod.mk.injEq, PRes.v.injEq] at hp2
                    rcases hv with hv | hv <;> rw [hv] at hp2 <;>
                      exact Json.noConfusion hp2.1
                  · rw [if_neg h7] at h
                    exact Option.noConfusion h

/-- Character set that a whole input can use when the strict decode
succeeds with zero elements: such an input is `null` or an empty array
surrounded by JSON whitespace. -/
def zeroElemChar (c : Char) : Prop :=
  jsonWsP c = true ∨ c = 'n' ∨ c = 'u' ∨ c = 'l' ∨ c = '[' ∨ c = ']'

instance (c : Char) : Decidable (zeroElemChar c) := by
  unfold zeroElemChar; infer_instance

theorem unmarshal_some_nil_chars (content : List Char)
    (h : unmarshalSuggestions content = some []) :
    ∀ c ∈ content, zeroElemChar c := by
  unfold unmarshalSuggestions at h
  cases hp : parseJsonFull content with
  | none => rw [hp] at h; exact Option.noConfusion h
  | some v =>
    rw [hp, Option.some_bind] at h
    have hv : v = Json.null ∨ v = Json.arr [] := by
      cases v with
      | null => exact Or.inl rfl
      | arr elems =>
        exact Or.inr (by rw [optMapM_eq_nil decodeStrMapMap elems h])
      | bool b => exact Option.noConfusion h
      | num lx => exact Option.noConfusion h
      | str sv => exact Option.noConfusion h
      | obj ms => exact Option.noConfusion h
    unfold parseJsonFull at hp
    cases hpv : parseValue (2 * content.length + 2) (jskipWs content) with
    | none => rw [hpv] at hp; exact Option.noConfusion hp
    | some p =>
      rw [hpv] at hp
      cases p with
      | mk v2 rest =>
        dsimp only at hp
        by_cases hr : jskipWs rest = []
        · rw [if_pos hr] at hp
          have hv2 : v2 = v := by
            simpa using hp
          unfold parseValue at hpv
          cases hrun : parseRun (2 * content.length + 2) PMode.val
              (jskipWs content) with
          | none => rw [hrun] at hpv; exact Option.noConfusion hpv
          | some q =>
            rw [hrun] at hpv
            cases q with
            | mk res rest2 =>
              cases res with
              | v j =>
                simp only [Option.some_inj, Prod.mk.injEq] at hpv
                rcases hpv with ⟨hj, hrest2⟩
                rw [hrest2, hj, hv2] at hrun
                have hshape := parseRun_val_shape _ _ _ _ hrun hv
                rcases dropWhile_decomp jsonWsP content with ⟨pre0, hpre0, hpre0Ws⟩
                have hrestWs := dropWhile_nil_all jsonWsP rest hr
                intro c hc
                rw [hpre0] at hc
                rcases List.mem_append.mp hc with hc | hc
                · exact Or.inl (hpre0Ws c hc)
                · rcases hshape with ⟨_, hcs⟩ | ⟨_, ws, hcs, hws⟩
                  · rw [show jskipWs content =
                        List.dropWhile jsonWsP content from rfl] at hcs
                    rw [hcs] at hc
                    rcases List.mem_cons.mp hc with rfl | hc
                    · exact Or.inr (Or.inl rfl)
                    rcases List.mem_cons.mp hc with rfl | hc
                    · exact Or.inr (Or.inr (Or.inl rfl))
                    rcases List.mem_cons.mp hc with rfl | hc
                    · exact Or.inr (Or.inr (Or.inr (Or.inl rfl)))
                    rcases List.mem_cons.mp hc with rfl | hc
                    · exact Or.inr (Or.inr (Or.inr (Or.inl rfl)))
                    · exact Or.inl (hrestWs c hc)
                  · rw [show jskipWs content =
                        List.dropWhile jsonWsP content from rfl] at hcs
                    rw [hcs] at hc
                    rcases List.mem_cons.mp hc with rfl | hc
                    · exact Or.inr (Or.inr (Or.inr (Or.inr (Or.inl rfl))))
                    rcases List.mem_append.mp hc with hc | hc
                    · exact Or.inl (hws c hc)
                    rcases List.mem_cons.mp hc with rfl | hc
                    · exact Or.inr (Or.inr (Or.inr (Or.inr (Or.inr rfl))))
                    · exact Or.inl (hrestWs c hc)
              | es l => dsimp only at hpv; exact Option.noConfusion hpv
              | ms l => dsimp only at hpv; exact Option.noConfusion hpv
        · rw [if_neg hr] at hp
          exact Option.noConfusion hp

theorem zeroElemChars_extract_nil (content : List Char)
    (hS : ∀ c ∈ content, zeroElemChar c) :
    extractCommandsFromText content = [] := by
  unfold extractCommandsFromText
  rw [List.filterMap_eq_nil_iff]
  intro line hline
  unfold processLine
  by_cases hl : goTrimSpace line = []
  · simp [hl]
  · rw [if_neg hl]
    apply trySeparators_none
    intro sep hsep a b hsp
    intro _
    have hmem := splitOnce_mem sep _ _ hsp
    rcases List.mem_cons.mp hsep with hs1 | hs1
    · have hdash : '-' ∈ goTrimSpace line := by
        subst hs1
        exact hmem '-' (by decide)
      have h2 := mem_goTrimSpace_mem line '-' hdash
      have h3 := mem_splitChar_mem '\n' content line hline '-' h2
      exact absurd (hS '-' h3) (by decide)
    · rcases List.mem_cons.mp hs1 with hs2 | hs2
      · have hcolon : ':' ∈ goTrimSpace line := by
          subst hs2
          exact hmem ':' (by decide)
        have h2 := mem_goTrimSpace_mem line ':' hcolon
        have h3 := mem_splitChar_mem '\n' content line hline ':' h2
        exact absurd (hS ':' h3) (by decide)
      · simp at hs2

/-- C2: the parse pipeline is observationally the fallback whenever the
strict decode errors or decodes to zero elements — on a decode error the
code runs `extractCommandsFromText` directly, and on a successful decode
of zero elements (inputs like `null` or `[]`) both strategies provably
yield the empty list — and it never fails hard: when both strategies
produce nothing it returns the empty suggestion sequence together with an
error value rather than crashing. -/
theorem parse_fallback_and_total (content : List Char)
    (h : unmarshalSuggestions content = none ∨
      unmarshalSuggestions content = some []) :
    (suggestionsOfContent content).suggestions =
      extractCommandsFromText content ∧
    ((unmarshalSuggestions content = none ∧
        extractCommandsFromText content = []) →
      suggestionsOfContent content =
        ⟨[], some "failed to parse suggestions"⟩) := by
  constructor
  · rcases h with h | h
    · unfold suggestionsOfContent
      rw [h]
      dsimp only
      by_cases hf : (extractCommandsFromText content).length > 0
      · rw [if_pos hf]
      · rw [if_neg hf]
        have hnil : extractCommandsFromText content = [] := by
          cases hx : extractCommandsFromText content with
          | nil => rfl
          | cons a l => rw [hx] at hf; simp at hf
        rw [hnil]
    · unfold suggestionsOfContent
      rw [h]
      dsimp only
      rw [zeroElemChars_extract_nil content (unmarshal_some_nil_chars content h)]
      rfl
  · rintro ⟨h1, h2⟩
    unfold suggestionsOfContent
    rw [h1]
    dsimp only
    rw [h2]
    rfl

theorem parse_fallback_and_total_witness :
    unmarshalSuggestions ("hello - world".data) = none ∧
    (suggestionsOfContent ("hello - world".data)).suggestions =
      extractCommandsFromText ("hello - world".data) :=
  ⟨rfl,
    (parse_fallback_and_total ("hello - world".data) (Or.inl rfl)).1⟩
